import Mathlib

/-!
Verification of the survey-response dashboard (`src/shiptestapp.py`).

Shallow embedding conventions:
* A cell of the uploaded table is `Option String` (`none` models a missing /
  NaN cell as produced by `pandas.read_csv` / `read_excel`).
* A column is a `List (Option String)`; a table is a `List (String × List Cell)`
  of named columns in order.
* Python regular-expression searches are embedded as executable Boolean
  functions on `List Char` (`.` does not cross a newline, `\s` is Python's
  whitespace class, `\w` is the ASCII word-character class, `IGNORECASE` is
  modelled by lowercasing first; column names are treated as ASCII for the
  purposes of case folding, matching the data the app was written for).
* Floating-point percentages are exact in the model: a percent rounded to
  one decimal place is stored as an integer number of tenths
  (`TallyRow.percent10`), computed by the integer rounding `halfEvenDiv`
  (round half to even, numpy's mode); `round1` is the rational-level
  specification of the same rounding and `halfEvenDiv_eq_rheQ` proves the
  two agree.  Storing tenths keeps every definition computable by the
  kernel.
* `pandas.value_counts` sorts by descending count; its tie order is not
  specified by pandas, so it is modelled deterministically as first-seen
  order (a stable descending sort), which is also what the spec allows.
-/

/-! ## Character classes -/

/-- Python's `\s` class (ASCII part), also the set stripped by `str.strip()`. -/
def isWs (c : Char) : Bool :=
  c == ' ' || c == '\t' || c == '\n' || c == '\r' || c == '\x0b' || c == '\x0c'

/-- Python's `\w` class (ASCII part): letters, digits, underscore. -/
def isWordChar (c : Char) : Bool :=
  c.isAlphanum || c == '_'

/-- ASCII lowercasing of one character, modelling `str.lower` /
`re.IGNORECASE` (spelled as an explicit table so that every fact about it
is provable by case analysis). -/
def lowerChar (c : Char) : Char :=
  match c with
  | 'A' => 'a' | 'B' => 'b' | 'C' => 'c' | 'D' => 'd' | 'E' => 'e' | 'F' => 'f'
  | 'G' => 'g' | 'H' => 'h' | 'I' => 'i' | 'J' => 'j' | 'K' => 'k' | 'L' => 'l'
  | 'M' => 'm' | 'N' => 'n' | 'O' => 'o' | 'P' => 'p' | 'Q' => 'q' | 'R' => 'r'
  | 'S' => 's' | 'T' => 't' | 'U' => 'u' | 'V' => 'v' | 'W' => 'w' | 'X' => 'x'
  | 'Y' => 'y' | 'Z' => 'z'
  | _ => c

def lowerStr (s : String) : String :=
  ⟨s.data.map lowerChar⟩

/-! ## List-level string helpers -/

/-- Drop whitespace at the front (`str.strip`, left side). -/
def lstripWs (l : List Char) : List Char := l.dropWhile isWs

/-- Drop whitespace at the back. -/
def rstripWs (l : List Char) : List Char := (l.reverse.dropWhile isWs).reverse

/-- Python `str.strip()` on a list of characters. -/
def stripWs (l : List Char) : List Char := rstripWs (lstripWs l)

/-- Python `str.split(sep)` for a one-character separator: always returns at
least one piece, keeps empty pieces. -/
def splitOnChar (sep : Char) : List Char → List (List Char)
  | [] => [[]]
  | c :: t =>
    let r := splitOnChar sep t
    if c == sep then [] :: r
    else
      match r with
      | h :: rs => (c :: h) :: rs
      | [] => [[c]]

/-! ## Embedded regular-expression searches

`re.search` only needs an existence test, so each pattern of the source is
embedded as a Boolean scan.  Patterns containing `.` are searched line by
line because Python's `.` does not match a newline. -/

/-- Does `needle` occur as a contiguous substring of `l`? -/
def containsTok (needle : List Char) : List Char → Bool
  | [] => needle.isEmpty
  | c :: t => needle.isPrefixOf (c :: t) || containsTok needle t

/-- The remainder of `l` after the first occurrence of `needle`, if any. -/
def dropAfterTok (needle : List Char) : List Char → Option (List Char)
  | [] => if needle.isEmpty then some [] else none
  | c :: t =>
    if needle.isPrefixOf (c :: t) then some ((c :: t).drop needle.length)
    else dropAfterTok needle t

/-- Pattern `a.*b` within one line: `a`, then `b` somewhere later. -/
def seq2 (a b : List Char) (l : List Char) : Bool :=
  match dropAfterTok a l with
  | some r => containsTok b r
  | none => false

/-- Pattern `a.*b.*c` within one line. -/
def seq3 (a b c : List Char) (l : List Char) : Bool :=
  match dropAfterTok a l with
  | some r => seq2 b c r
  | none => false

/-- The newline-delimited lines of `l` (`.` in a Python regex cannot cross
from one of these into the next). -/
def linesOf (l : List Char) : List (List Char) := splitOnChar '\n' l

/-- Pattern `\btoken\b`: an occurrence of `token` with no word character on either
side.  `prev` is the character just before the current scan position. -/
def tokenWordSearch (prev : Option Char) : List Char → Bool
  | [] => false
  | c :: t =>
    (("token".data.isPrefixOf (c :: t))
      && (match prev with
          | none => true
          | some p => !isWordChar p)
      && (match (c :: t).drop 5 with
          | [] => true
          | d :: _ => !isWordChar d))
    || tokenWordSearch (some c) t

/-- Pattern `submitted\s*at`: `submitted`, optional whitespace, `at`. -/
def submittedAtSearch : List Char → Bool
  | [] => false
  | c :: t =>
    (("submitted".data.isPrefixOf (c :: t))
      && ("at".data.isPrefixOf (((c :: t).drop 9).dropWhile isWs)))
    || submittedAtSearch t

/-! ## Column classification (`drop_irrelevant`, `multi_re`, `photo_re`) -/

/-- The irrelevant-column pattern of `drop_irrelevant`, applied to an
already-lowercased name:
`first.*last.*name|tracking|clean|email|\btoken\b|submitted\s*at`. -/
def irrelevantL (l : List Char) : Bool :=
  (linesOf l).any (seq3 "first".data "last".data "name".data)
  || containsTok "tracking".data l
  || containsTok "clean".data l
  || containsTok "email".data l
  || tokenWordSearch none l
  || submittedAtSearch l

/-- Search of `drop_irrelevant`'s regex with `re.IGNORECASE`. -/
def irrelevantMatch (s : String) : Bool :=
  irrelevantL (lowerStr s).data

/-- Search of `multi_re = re.compile(r"select.*appl", re.IGNORECASE)` in a name. -/
def multiMatchL (l : List Char) : Bool :=
  (linesOf l).any (seq2 "select".data "appl".data)

def multiMatch (s : String) : Bool :=
  multiMatchL (lowerStr s).data

/-- Search of `photo_re = re.compile(r"(take.*picture|attach.*picture|photo)", re.IGNORECASE)`. -/
def photoMatchL (l : List Char) : Bool :=
  (linesOf l).any (seq2 "take".data "picture".data)
  || (linesOf l).any (seq2 "attach".data "picture".data)
  || containsTok "photo".data l

def photoMatch (s : String) : Bool :=
  photoMatchL (lowerStr s).data

/-- The effective classification of a (cleaned) column name in the app:
an irrelevant match drops the column before anything else looks at it,
photo columns are excluded from tallying, then the multi-select test
decides the tally strategy. -/
inductive ColClass where
  | Irrelevant
  | Photo
  | MultiSelect
  | Simple
deriving DecidableEq, Repr

def classify (name : String) : ColClass :=
  if irrelevantMatch name then .Irrelevant
  else if photoMatch name then .Photo
  else if multiMatch name then .MultiSelect
  else .Simple

/-! ## Header normalizer (`clean_headers`)

`re.sub(r"\s*\([^)]*\)", "", c).strip()`: repeatedly delete the leftmost
occurrence of optional whitespace followed by a parenthesized group, then
strip.  `matchAt` tries the pattern at the head of the list (`\s*` greedily,
`[^)]*` up to the first `)`), exactly as the regex engine does. -/

def matchAt (l : List Char) : Option (List Char) :=
  match l.dropWhile isWs with
  | [] => none
  | c :: rest =>
    if c = '(' then
      match rest.dropWhile (fun c => !(c == ')')) with
      | [] => none
      | d :: tail => if d = ')' then some tail else none
    else none

theorem matchAt_suffix {l t : List Char} (h : matchAt l = some t) : t <:+ l := by
  unfold matchAt at h
  rcases hd : l.dropWhile isWs with _ | ⟨c, rest⟩ <;> rw [hd] at h
  · exact absurd h (by simp)
  · dsimp only at h
    by_cases hc : c = '('
    swap
    · rw [if_neg hc] at h; exact absurd h (by simp)
    rw [if_pos hc] at h
    rcases hd2 : rest.dropWhile (fun c => !(c == ')')) with _ | ⟨d, tail⟩ <;>
      rw [hd2] at h
    · exact absurd h (by simp)
    · dsimp only at h
      by_cases hdp : d = ')'
      swap
      · rw [if_neg hdp] at h; exact absurd h (by simp)
      rw [if_pos hdp] at h
      simp only [Option.some.injEq] at h
      subst h; subst hc; subst hdp
      have h1 : tail <:+ ')' :: tail := ⟨[')'], rfl⟩
      have h2 : (')' :: tail) <:+ rest := hd2 ▸ List.dropWhile_suffix _
      have h3 : rest <:+ '(' :: rest := ⟨['('], rfl⟩
      have h4 : ('(' :: rest) <:+ l := hd ▸ List.dropWhile_suffix _
      exact (h1.trans h2).trans (h3.trans h4)

theorem matchAt_length {l t : List Char} (h : matchAt l = some t) :
    t.length < l.length := by
  have hs := matchAt_suffix h
  unfold matchAt at h
  rcases hd : l.dropWhile isWs with _ | ⟨c, rest⟩ <;> rw [hd] at h
  · exact absurd h (by simp)
  · dsimp only at h
    by_cases hc : c = '('
    swap
    · rw [if_neg hc] at h; exact absurd h (by simp)
    rw [if_pos hc] at h
    rcases hd2 : rest.dropWhile (fun c => !(c == ')')) with _ | ⟨d, tail⟩ <;>
      rw [hd2] at h
    · exact absurd h (by simp)
    · dsimp only at h
      by_cases hdp : d = ')'
      swap
      · rw [if_neg hdp] at h; exact absurd h (by simp)
      rw [if_pos hdp] at h
      simp only [Option.some.injEq] at h
      subst h
      have h2 : (d :: tail).length ≤ rest.length :=
        (hd2 ▸ List.dropWhile_suffix _ : (d :: tail) <:+ rest).length_le
      have h4 : ((c :: rest)).length ≤ l.length :=
        (hd ▸ List.dropWhile_suffix _ : (c :: rest) <:+ l).length_le
      simp only [List.length_cons] at h2 h4
      omega

/-- Global `re.sub(r"\s*\([^)]*\)", "", ·)`: scan left to right, removing
each leftmost match and continuing after it.  The scan consumes at least
one character per step, so running it with the length of the list as fuel
computes the full substitution; the fuel keeps the recursion structural
(and hence kernel-computable). -/
def parenSubGo : Nat → List Char → List Char
  | _, [] => []
  | 0, l => l
  | fuel + 1, c :: cs =>
    match matchAt (c :: cs) with
    | some tail => parenSubGo fuel tail
    | none => c :: parenSubGo fuel cs

def parenSub (l : List Char) : List Char := parenSubGo l.length l

theorem parenSubGo_fuel :
    ∀ (f₁ f₂ : Nat) (l : List Char), l.length ≤ f₁ → l.length ≤ f₂ →
      parenSubGo f₁ l = parenSubGo f₂ l := by
  intro f₁
  induction f₁ with
  | zero =>
    intro f₂ l h1 h2
    have : l = [] := List.eq_nil_of_length_eq_zero (by omega)
    subst this
    cases f₂ <;> rfl
  | succ f₁' ih =>
    intro f₂ l h1 h2
    cases l with
    | nil => cases f₂ <;> rfl
    | cons c cs =>
      cases f₂ with
      | zero => simp at h2
      | succ f₂' =>
        rw [parenSubGo, parenSubGo]
        rcases hm : matchAt (c :: cs) with _ | tail
        · dsimp only
          simp only [List.length_cons] at h1 h2
          rw [ih f₂' cs (by omega) (by omega)]
        · dsimp only
          have hlen := matchAt_length hm
          simp only [List.length_cons] at h1 h2 hlen
          rw [ih f₂' tail (by omega) (by omega)]

/-- The body of `clean_headers` applied to one column name. -/
def normalizeName (s : String) : String :=
  ⟨stripWs (parenSub s.data)⟩

/-! ## Idempotence machinery for the normalizer -/

theorem parenSub_eq_some {c : Char} {cs tail : List Char}
    (h : matchAt (c :: cs) = some tail) :
    parenSub (c :: cs) = parenSub tail := by
  show parenSubGo (c :: cs).length (c :: cs) = _
  rw [List.length_cons, parenSubGo, h]
  dsimp only
  have hlen := matchAt_length h
  rw [List.length_cons] at hlen
  exact parenSubGo_fuel cs.length tail.length tail (by omega) le_rfl

theorem parenSub_eq_none {c : Char} {cs : List Char}
    (h : matchAt (c :: cs) = none) :
    parenSub (c :: cs) = c :: parenSub cs := by
  show parenSubGo (c :: cs).length (c :: cs) = _
  rw [List.length_cons, parenSubGo, h]
  dsimp only
  rfl

theorem parenSub_sublist (l : List Char) : List.Sublist (parenSub l) l := by
  suffices h : ∀ (n : Nat) (l : List Char), l.length = n → List.Sublist (parenSub l) l by
    exact h l.length l rfl
  intro n
  induction n using Nat.strong_induction_on with
  | _ n ih =>
    intro l hl
    cases l with
    | nil => exact List.Sublist.refl []
    | cons c cs =>
      rcases hm : matchAt (c :: cs) with _ | tail
      · rw [parenSub_eq_none hm]
        refine List.Sublist.cons₂ c (ih cs.length ?_ cs rfl)
        simp only [List.length_cons] at hl
        omega
      · rw [parenSub_eq_some hm]
        have hlen := matchAt_length hm
        simp only [List.length_cons] at hl hlen
        exact (ih tail.length (by omega) tail rfl).trans (matchAt_suffix hm).sublist

/-- A list is paren-clean when no `'('` in it is followed by a later `')'`,
i.e. the regex `\s*\([^)]*\)` has no match in it. -/
def cleanL (l : List Char) : Prop :=
  ∀ a b, l = a ++ '(' :: b → ')' ∉ b

theorem cleanL_nil : cleanL [] := by
  intro a b hab
  simp at hab

theorem cleanL_cons {c : Char} {l : List Char} (h : cleanL (c :: l)) : cleanL l := by
  intro a b hab
  exact h (c :: a) b (by rw [List.cons_append, hab])

theorem cleanL_of_not_mem {l : List Char} (h : '(' ∉ l) : cleanL l := by
  intro a b hab
  exact absurd (hab ▸ (List.mem_append_right a (List.mem_cons_self _ _))) h

theorem dropWhile_cons_head {α : Type} (p : α → Bool) {l : List α} {c : α}
    {t : List α} (h : l.dropWhile p = c :: t) : p c = false := by
  induction l with
  | nil => simp at h
  | cons x xs ih =>
    rw [List.dropWhile_cons] at h
    by_cases hx : p x
    · rw [if_pos hx] at h; exact ih h
    · rw [if_neg hx] at h
      cases h
      simpa using hx

theorem rparen_not_mem_of_matchAt_none {cs : List Char}
    (h : matchAt ('(' :: cs) = none) : ')' ∉ cs := by
  unfold matchAt at h
  have hws : isWs '(' = false := by decide
  rw [List.dropWhile_cons, hws] at h
  simp only [Bool.false_eq_true, if_false, if_pos rfl] at h
  rcases hq : cs.dropWhile (fun c => !(c == ')')) with _ | ⟨d, tail⟩
  · intro hmem
    have : ∀ a ∈ cs, (fun c => !(c == ')')) a = true :=
      List.dropWhile_eq_nil_iff.mp hq
    have := this ')' hmem
    simp at this
  · have hdf : (fun c => !(c == ')')) d = false :=
      dropWhile_cons_head (fun c => !(c == ')')) hq
    have hdp : d = ')' := by simpa using hdf
    rw [hq] at h
    subst hdp
    simp at h

theorem matchAt_none_of_clean {l : List Char} (h : cleanL l) : matchAt l = none := by
  rcases hm : matchAt l with _ | t
  · rfl
  · exfalso
    unfold matchAt at hm
    rcases hd : l.dropWhile isWs with _ | ⟨c, rest⟩ <;> rw [hd] at hm
    · exact absurd hm (by simp)
    · dsimp only at hm
      by_cases hc : c = '('
      swap
      · rw [if_neg hc] at hm; exact absurd hm (by simp)
      rw [if_pos hc] at hm
      rcases hd2 : rest.dropWhile (fun c => !(c == ')')) with _ | ⟨d, tail⟩ <;>
        rw [hd2] at hm
      · exact absurd hm (by simp)
      · have hl : l.takeWhile isWs ++ (c :: rest) = l := by
          rw [← hd]
          exact List.takeWhile_append_dropWhile isWs l
        have hrest : rest.takeWhile (fun c => !(c == ')')) ++ (d :: tail) = rest := by
          rw [← hd2]
          exact List.takeWhile_append_dropWhile _ rest
        have hdp : d = ')' := by
          have := dropWhile_cons_head (fun c => !(c == ')')) hd2
          simpa using this
        subst hc
        subst hdp
        have hsplit : l = l.takeWhile isWs ++ '(' ::
            (rest.takeWhile (fun c => !(c == ')')) ++ ')' :: tail) := by
          rw [hrest]
          exact hl.symm
        exact h _ _ hsplit (List.mem_append_right _ (List.mem_cons_self _ _))

theorem cleanL_parenSub (l : List Char) : cleanL (parenSub l) := by
  suffices h : ∀ (n : Nat) (l : List Char), l.length = n → cleanL (parenSub l) by
    exact h l.length l rfl
  intro n
  induction n using Nat.strong_induction_on with
  | _ n ih =>
    intro l hl
    cases l with
    | nil => simpa [parenSub, parenSubGo] using cleanL_nil
    | cons c cs =>
      rcases hm : matchAt (c :: cs) with _ | tail
      · rw [parenSub_eq_none hm]
        intro a b hab
        rcases a with _ | ⟨a', as⟩
        · simp only [List.nil_append, List.cons.injEq] at hab
          obtain ⟨hc, hb⟩ := hab
          subst hc
          have hnot : ')' ∉ cs := rparen_not_mem_of_matchAt_none hm
          intro hmem
          exact hnot (List.Sublist.mem (hb ▸ hmem) (parenSub_sublist cs))
        · simp only [List.cons_append, List.cons.injEq] at hab
          have ihcs : cleanL (parenSub cs) := by
            refine ih cs.length ?_ cs rfl
            simp only [List.length_cons] at hl
            omega
          exact ihcs as b hab.2
      · rw [parenSub_eq_some hm]
        have hlen := matchAt_length hm
        simp only [List.length_cons] at hl hlen
        exact ih tail.length (by omega) tail rfl

theorem parenSub_of_clean {l : List Char} (h : cleanL l) : parenSub l = l := by
  induction l with
  | nil => rfl
  | cons c cs ih =>
    rw [parenSub_eq_none (matchAt_none_of_clean h), ih (cleanL_cons h)]

theorem cleanL_infix {l m : List Char} (h : cleanL l) (hm : m <:+: l) : cleanL m := by
  obtain ⟨s, t, rfl⟩ := hm
  intro a b hab
  have : s ++ m ++ t = (s ++ a) ++ '(' :: (b ++ t) := by
    rw [hab]; simp
  intro hmem
  exact h _ _ this (List.mem_append_left t hmem)

theorem rstripWs_prefix (l : List Char) : rstripWs l <+: l := by
  apply List.reverse_suffix.mp
  unfold rstripWs
  rw [List.reverse_reverse]
  exact List.dropWhile_suffix _

theorem stripWs_inside (l : List Char) : stripWs l <:+: l := by
  have h1 : stripWs l <+: lstripWs l := rstripWs_prefix _
  have h2 : lstripWs l <:+ l := List.dropWhile_suffix _
  exact h1.isInfix.trans h2.isInfix

theorem dropWhile_eq_self_of_head {α : Type} {p : α → Bool} {l : List α}
    (h : ∀ c (t : List α), l = c :: t → p c = false) : l.dropWhile p = l := by
  cases l with
  | nil => rfl
  | cons c t =>
    rw [List.dropWhile_cons, if_neg]
    simp [h c t rfl]

theorem dropWhile_idem {α : Type} (p : α → Bool) (l : List α) :
    (l.dropWhile p).dropWhile p = l.dropWhile p := by
  apply dropWhile_eq_self_of_head
  intro c t h
  exact dropWhile_cons_head p h

theorem rstripWs_idem (l : List Char) : rstripWs (rstripWs l) = rstripWs l := by
  unfold rstripWs
  rw [List.reverse_reverse, dropWhile_idem]

theorem lstripWs_stripWs (l : List Char) : lstripWs (stripWs l) = stripWs l := by
  apply dropWhile_eq_self_of_head
  intro c t h
  have hpre : (c :: t) <+: lstripWs l := by
    rw [← h]
    exact rstripWs_prefix (lstripWs l)
  obtain ⟨r, hr⟩ := hpre
  rw [List.cons_append] at hr
  exact dropWhile_cons_head isWs hr.symm

theorem stripWs_idem (l : List Char) : stripWs (stripWs l) = stripWs l := by
  show rstripWs (lstripWs (stripWs l)) = stripWs l
  rw [lstripWs_stripWs]
  show rstripWs (rstripWs (lstripWs l)) = _
  rw [rstripWs_idem]
  rfl

/-- C7: the Header Normalizer (`clean_headers`) is idempotent —
`normalize(normalize(x)) = normalize(x)` for every column-name string —
and a name without parentheses is only trimmed of leading/trailing
whitespace.  (As a total Lean function it raises no errors.) -/
theorem claim_C7_normalizer_idempotent (x : String) :
    normalizeName (normalizeName x) = normalizeName x
    ∧ ('(' ∉ x.data → normalizeName x = ⟨stripWs x.data⟩) := by
  constructor
  · show (⟨stripWs (parenSub (normalizeName x).data)⟩ : String) = normalizeName x
    have hdata : (normalizeName x).data = stripWs (parenSub x.data) := rfl
    rw [hdata]
    have hclean : cleanL (stripWs (parenSub x.data)) :=
      cleanL_infix (cleanL_parenSub x.data) (stripWs_inside _)
    rw [parenSub_of_clean hclean, stripWs_idem]
    rfl
  · intro hnp
    show (⟨stripWs (parenSub x.data)⟩ : String) = _
    rw [parenSub_of_clean (cleanL_of_not_mem hnp)]

theorem claim_C7_witness :
    ('(' ∉ ("  Employee  Age " : String).data)
    ∧ normalizeName (normalizeName "  Employee  Age ") = normalizeName "  Employee  Age "
    ∧ normalizeName "  Employee  Age " = ⟨stripWs ("  Employee  Age " : String).data⟩ :=
  ⟨by decide, (claim_C7_normalizer_idempotent "  Employee  Age ").1,
    (claim_C7_normalizer_idempotent "  Employee  Age ").2 (by decide)⟩

/-! ## Tally engine (`summarize_simple`, `summarize_multi`) -/

/-- One cell of the uploaded table; `none` is a missing value (NaN). -/
abbrev Cell := Option String

/-- Elements of `l` not in `seen`, keeping first occurrences in order. -/
def ufsAux {α : Type} [DecidableEq α] (seen : List α) : List α → List α
  | [] => []
  | x :: xs => if x ∈ seen then ufsAux seen xs else x :: ufsAux (x :: seen) xs

/-- Distinct values of a list in first-seen order (`pandas.unique`; also the
index construction underlying `value_counts`). -/
def uniqueFirstSeen {α : Type} [DecidableEq α] (l : List α) : List α := ufsAux [] l

/-- The model of `Series.value_counts`: pairs `(value, multiplicity)` sorted
by descending count; ties deterministically in first-seen order. -/
def valueCounts {α : Type} [DecidableEq α] (s : List α) : List (α × Nat) :=
  List.insertionSort (fun p q : α × Nat => q.2 ≤ p.2)
    ((uniqueFirstSeen s).map (fun v => (v, s.count v)))

/-- Round half to even of the fraction `a / b` (for `b > 0`), in pure integer
arithmetic: this is numpy's rounding of the quotient.  `/` and `%` on `ℤ` are
Euclidean (floor-like for a positive divisor). -/
def halfEvenDiv (a b : ℤ) : ℤ :=
  let q := a / b
  let r := a % b
  if 2 * r = b then (if q % 2 = 0 then q else q + 1)
  else if 2 * r < b then q else q + 1

/-- Round half to even at integer precision on rationals (specification-level
counterpart of `halfEvenDiv`). -/
def rheQ (x : ℚ) : ℤ :=
  if x - ⌊x⌋ = 1 / 2 then (if Even ⌊x⌋ then ⌊x⌋ else ⌊x⌋ + 1) else round x

/-- Model of `.round(1)` on an exact rational: round half to even at one
decimal place. -/
def round1 (x : ℚ) : ℚ := (rheQ (10 * x) : ℚ) / 10

/-- One row of a Tally Table.  Because rational arithmetic is not
kernel-reducible, the percent is stored scaled by ten (`percent10` is
`10 ×` the displayed percent, an exact integer since the code rounds to one
decimal place); `TallyRow.percentQ` recovers the displayed rational value. -/
structure TallyRow where
  response : String
  count : Nat
  percent10 : ℤ
deriving DecidableEq

/-- The displayed percent of a tally row, as a rational. -/
def TallyRow.percentQ (r : TallyRow) : ℚ := (r.percent10 : ℚ) / 10

/-- The string form of a cell as produced by `.index.astype(str)`
(`str(np.nan) = "nan"`). -/
def cellStr : Cell → String
  | some v => v
  | none => "nan"

/-- The body of `summarize_simple`: `value_counts(dropna=False)`, percents
`count / c.sum() * 100` rounded to one decimal (stored in tenths:
`1000 * count / total` rounded half-even). -/
def summarize_simple (s : List Cell) : List TallyRow :=
  let c := valueCounts s
  let tot := (c.map Prod.snd).sum
  c.map (fun p => ⟨cellStr p.1, p.2, halfEvenDiv (1000 * (p.2 : ℤ)) (tot : ℤ)⟩)

/-- Python `str.strip()` on a `String`. -/
def pyStrip (s : String) : String := ⟨stripWs s.data⟩

/-- Comma-split and whitespace-trim of one multi-select cell
(`.str.split(",")` + `.str.strip()` after the explode). -/
def tokensOf (v : String) : List String :=
  (splitOnChar ',' v.data).map (fun l => pyStrip ⟨l⟩)

/-- The body of `summarize_multi`: drop missing cells, split on commas,
explode, strip, tally; the percent denominator is the count of non-missing
cells. -/
def summarize_multi (s : List Cell) : List TallyRow :=
  let nm := s.filterMap id
  let ex := nm.flatMap tokensOf
  let c := valueCounts ex
  c.map (fun p => ⟨p.1, p.2, halfEvenDiv (1000 * (p.2 : ℤ)) (nm.length : ℤ)⟩)

/-- The synthetic Total row the display code appends to a simple tally:
count = sum of the counts, percent = the sum of the (already rounded)
percents, rounded once more (`sd["Percent (%)"].sum().round(1)`; in tenths
the final rounding is `halfEvenDiv · 1`). -/
def withTotal (t : List TallyRow) : List TallyRow :=
  t ++ [⟨"Total", (t.map TallyRow.count).sum,
        halfEvenDiv ((t.map TallyRow.percent10).sum) 1⟩]

/-- Tally strategy selection for the combined export
(`summarize_multi if multi_re.search(col) else summarize_simple`). -/
def tallyFor (name : String) (cells : List Cell) : List TallyRow :=
  if multiMatch name then summarize_multi cells else summarize_simple cells

/-- Tally as displayed per column: multi-select tallies are shown as-is, a
simple tally gets the Total row appended (`if fn is summarize_simple`). -/
def displayTally (name : String) (cells : List Cell) : List TallyRow :=
  if multiMatch name then summarize_multi cells
  else withTotal (summarize_simple cells)

example : summarize_simple [some "Red", some "Blue", some "Red", none] =
    [⟨"Red", 2, 500⟩, ⟨"Blue", 1, 250⟩, ⟨"nan", 1, 250⟩] := by decide

example : summarize_multi [some "Cheese, Pepperoni", some "Cheese", none] =
    [⟨"Cheese", 2, 1000⟩, ⟨"Pepperoni", 1, 500⟩] := by decide

/-! ## Properties of the first-seen deduplication and of `valueCounts` -/

theorem mem_ufsAux {α : Type} [DecidableEq α] {seen l : List α} {a : α} :
    a ∈ ufsAux seen l ↔ a ∈ l ∧ a ∉ seen := by
  induction l generalizing seen with
  | nil => simp [ufsAux]
  | cons x xs ih =>
    by_cases hx : x ∈ seen
    · rw [ufsAux, if_pos hx, ih]
      constructor
      · rintro ⟨h1, h2⟩
        exact ⟨List.mem_cons_of_mem x h1, h2⟩
      · rintro ⟨h1, h2⟩
        rcases List.mem_cons.mp h1 with rfl | h1
        · exact absurd hx h2
        · exact ⟨h1, h2⟩
    · rw [ufsAux, if_neg hx]
      simp only [List.mem_cons, ih, List.mem_cons, not_or]
      constructor
      · rintro (rfl | ⟨h1, h2, h3⟩)
        · exact ⟨Or.inl rfl, hx⟩
        · exact ⟨Or.inr h1, h3⟩
      · rintro ⟨rfl | h1, h2⟩
        · exact Or.inl rfl
        · by_cases hax : a = x
          · exact Or.inl hax
          · exact Or.inr ⟨h1, hax, h2⟩

theorem nodup_ufsAux {α : Type} [DecidableEq α] (seen l : List α) :
    (ufsAux seen l).Nodup := by
  induction l generalizing seen with
  | nil => simp [ufsAux]
  | cons x xs ih =>
    by_cases hx : x ∈ seen
    · rw [ufsAux, if_pos hx]; exact ih seen
    · rw [ufsAux, if_neg hx]
      refine List.Nodup.cons ?_ (ih (x :: seen))
      intro hmem
      exact (mem_ufsAux.mp hmem).2 (List.mem_cons_self x seen)

theorem mem_uniqueFirstSeen {α : Type} [DecidableEq α] {l : List α} {a : α} :
    a ∈ uniqueFirstSeen l ↔ a ∈ l := by
  rw [uniqueFirstSeen, mem_ufsAux]
  simp

theorem nodup_uniqueFirstSeen {α : Type} [DecidableEq α] (l : List α) :
    (uniqueFirstSeen l).Nodup := nodup_ufsAux [] l

theorem pairwise_indexOf_ufsAux {α : Type} [DecidableEq α] (seen l : List α) :
    (ufsAux seen l).Pairwise (fun a b => List.indexOf a l < List.indexOf b l) := by
  induction l generalizing seen with
  | nil => simp [ufsAux]
  | cons x xs ih =>
    by_cases hx : x ∈ seen
    · rw [ufsAux, if_pos hx]
      refine (ih seen).imp_of_mem ?_
      intro a b ha hb hab
      have hax : a ≠ x := fun h => (mem_ufsAux.mp ha).2 (h ▸ hx)
      have hbx : b ≠ x := fun h => (mem_ufsAux.mp hb).2 (h ▸ hx)
      rw [List.indexOf_cons_ne _ (Ne.symm hax), List.indexOf_cons_ne _ (Ne.symm hbx)]
      omega
    · rw [ufsAux, if_neg hx]
      refine List.Pairwise.cons ?_ ?_
      · intro b hb
        have hbx : b ≠ x :=
          fun h => (mem_ufsAux.mp hb).2 (h ▸ List.mem_cons_self x seen)
        rw [List.indexOf_cons_self, List.indexOf_cons_ne _ (Ne.symm hbx)]
        omega
      · refine (ih (x :: seen)).imp_of_mem ?_
        intro a b ha hb hab
        have hax : a ≠ x :=
          fun h => (mem_ufsAux.mp ha).2 (h ▸ List.mem_cons_self x seen)
        have hbx : b ≠ x :=
          fun h => (mem_ufsAux.mp hb).2 (h ▸ List.mem_cons_self x seen)
        rw [List.indexOf_cons_ne _ (Ne.symm hax), List.indexOf_cons_ne _ (Ne.symm hbx)]
        omega

theorem perm_uniqueFirstSeen_dedup {α : Type} [DecidableEq α] (s : List α) :
    (uniqueFirstSeen s).Perm s.dedup := by
  apply List.perm_iff_count.mpr
  intro a
  by_cases ha : a ∈ s
  · rw [List.count_eq_one_of_mem (nodup_uniqueFirstSeen s) (mem_uniqueFirstSeen.mpr ha),
      List.count_eq_one_of_mem (List.nodup_dedup s) (List.mem_dedup.mpr ha)]
  · rw [List.count_eq_zero_of_not_mem (fun h => ha (mem_uniqueFirstSeen.mp h)),
      List.count_eq_zero_of_not_mem (fun h => ha (List.mem_dedup.mp h))]

theorem sum_map_count_ufs {α : Type} [DecidableEq α] (s : List α) :
    ((uniqueFirstSeen s).map (fun v => List.count v s)).sum = s.length := by
  have h1 : ((uniqueFirstSeen s).map (fun v => List.count v s)).sum
      = (s.dedup.map (fun v => List.count v s)).sum :=
    ((perm_uniqueFirstSeen_dedup s).map _).sum_eq
  rw [h1]
  exact List.sum_map_count_dedup_eq_length s

theorem sum_counts_valueCounts {α : Type} [DecidableEq α] (s : List α) :
    ((valueCounts s).map Prod.snd).sum = s.length := by
  unfold valueCounts
  have hperm :=
    (List.perm_insertionSort (fun p q : α × Nat => q.2 ≤ p.2)
      ((uniqueFirstSeen s).map (fun v => (v, List.count v s)))).map Prod.snd
  rw [hperm.sum_eq, List.map_map]
  exact sum_map_count_ufs s

theorem mem_valueCounts {α : Type} [DecidableEq α] {s : List α} {p : α × Nat} :
    p ∈ valueCounts s ↔ p.1 ∈ s ∧ p.2 = List.count p.1 s := by
  unfold valueCounts
  rw [(List.perm_insertionSort _ _).mem_iff, List.mem_map]
  constructor
  · rintro ⟨v, hv, rfl⟩
    exact ⟨mem_uniqueFirstSeen.mp hv, rfl⟩
  · rintro ⟨h1, h2⟩
    exact ⟨p.1, mem_uniqueFirstSeen.mpr h1, by rw [← h2]⟩

/-! ## The two roundings agree -/

theorem halfEvenDiv_one (k : ℤ) : halfEvenDiv k 1 = k := by
  unfold halfEvenDiv
  simp [Int.emod_one]

theorem rheQ_intCast (k : ℤ) : rheQ (k : ℚ) = k := by
  unfold rheQ
  rw [Int.floor_intCast]
  rw [if_neg (by norm_num), round_intCast]

theorem round1_tenths (k : ℤ) : round1 ((k : ℚ) / 10) = (k : ℚ) / 10 := by
  unfold round1
  rw [mul_div_cancel₀ (k : ℚ) (by norm_num : (10 : ℚ) ≠ 0), rheQ_intCast]

theorem halfEvenDiv_eq_rheQ (a b : ℤ) (hb : 0 < b) :
    halfEvenDiv a b = rheQ ((a : ℚ) / (b : ℚ)) := by
  have hq := Int.ediv_add_emod a b
  have hr0 : 0 ≤ a % b := Int.emod_nonneg a hb.ne'
  have hrb : a % b < b := Int.emod_lt_of_pos a hb
  have hbQ : (0 : ℚ) < (b : ℚ) := by exact_mod_cast hb
  have hx : (a : ℚ) / (b : ℚ) = ((a / b : ℤ) : ℚ) + ((a % b : ℤ) : ℚ) / (b : ℚ) := by
    rw [div_eq_iff hbQ.ne', add_mul, div_mul_cancel₀ _ hbQ.ne']
    have hqQ : ((b * (a / b) + a % b : ℤ) : ℚ) = (a : ℚ) := by exact_mod_cast hq
    push_cast at hqQ
    linarith
  have hfr0 : (0 : ℚ) ≤ ((a % b : ℤ) : ℚ) / (b : ℚ) :=
    div_nonneg (by exact_mod_cast hr0) hbQ.le
  have hfr1 : ((a % b : ℤ) : ℚ) / (b : ℚ) < 1 := by
    rw [div_lt_one hbQ]; exact_mod_cast hrb
  have hfloor : ⌊(a : ℚ) / (b : ℚ)⌋ = a / b := by
    rw [hx, Int.floor_int_add]
    have h0 : ⌊((a % b : ℤ) : ℚ) / (b : ℚ)⌋ = 0 :=
      Int.floor_eq_zero_iff.mpr ⟨hfr0, hfr1⟩
    omega
  have hfrac : (a : ℚ) / (b : ℚ) - ((a / b : ℤ) : ℚ) = ((a % b : ℤ) : ℚ) / (b : ℚ) := by
    rw [hx]; ring
  have hhalf : ((a : ℚ) / (b : ℚ) - ((a / b : ℤ) : ℚ) = 1 / 2) ↔ 2 * (a % b) = b := by
    rw [hfrac, div_eq_div_iff hbQ.ne' (by norm_num : (2 : ℚ) ≠ 0)]
    constructor
    · intro h
      have h2 : ((2 * (a % b) : ℤ) : ℚ) = ((b : ℤ) : ℚ) := by push_cast; linarith
      exact_mod_cast h2
    · intro h
      have h2 : ((2 * (a % b) : ℤ) : ℚ) = ((b : ℤ) : ℚ) := by exact_mod_cast h
      push_cast at h2
      linarith
  unfold halfEvenDiv rheQ
  rw [hfloor]
  by_cases hcase : 2 * (a % b) = b
  · rw [if_pos hcase, if_pos (hhalf.mpr hcase)]
    simp only [Int.even_iff]
  · rw [if_neg hcase, if_neg (fun h => hcase (hhalf.mp h)), round_eq]
    by_cases hlt : 2 * (a % b) < b
    · rw [if_pos hlt]
      have hkey : ⌊(a : ℚ) / (b : ℚ) + 1 / 2⌋ = a / b := by
        rw [hx, add_assoc, Int.floor_int_add]
        have hlt2 : ((a % b : ℤ) : ℚ) / (b : ℚ) < 1 / 2 := by
          rw [div_lt_div_iff₀ hbQ (by norm_num : (0 : ℚ) < 2)]
          have hlt1 : ((2 * (a % b) : ℤ) : ℚ) < ((b : ℤ) : ℚ) := by exact_mod_cast hlt
          push_cast at hlt1
          linarith
        have h0 : ⌊((a % b : ℤ) : ℚ) / (b : ℚ) + 1 / 2⌋ = 0 :=
          Int.floor_eq_zero_iff.mpr ⟨by linarith, by linarith⟩
        omega
      omega
    · rw [if_neg hlt]
      have hgt : b < 2 * (a % b) := lt_of_le_of_ne (by omega) (fun h => hcase h.symm)
      have hkey : ⌊(a : ℚ) / (b : ℚ) + 1 / 2⌋ = a / b + 1 := by
        rw [hx, add_assoc, Int.floor_int_add]
        have hge2 : (1 : ℚ) / 2 < ((a % b : ℤ) : ℚ) / (b : ℚ) := by
          rw [div_lt_div_iff₀ (by norm_num : (0 : ℚ) < 2) hbQ]
          have hgt1 : ((b : ℤ) : ℚ) < ((2 * (a % b) : ℤ) : ℚ) := by exact_mod_cast hgt
          push_cast at hgt1
          linarith
        have h1 : ⌊((a % b : ℤ) : ℚ) / (b : ℚ) + 1 / 2⌋ = 1 := by
          rw [Int.floor_eq_iff]
          constructor
          · push_cast
            linarith
          · push_cast
            linarith
        omega
      omega

/-! ## The table pipeline (upload → clean → classify → export) -/

/-- A named column of the uploaded table. -/
abbrev NamedCol := String × List Cell

/-- Model of `clean_headers`: normalize every column name. -/
def clean_headers (t : List NamedCol) : List NamedCol :=
  t.map (fun c => (normalizeName c.1, c.2))

/-- Model of `drop_irrelevant`: keep the columns whose name does not match
the irrelevant pattern. -/
def drop_irrelevant (t : List NamedCol) : List NamedCol :=
  t.filter (fun c => !irrelevantMatch c.1)

/-- Model of `photo_cols`, computed on the cleaned table before the
irrelevant columns are dropped (lines 75–77 of the source). -/
def photo_cols (t : List NamedCol) : List String :=
  ((clean_headers t).map Prod.fst).filter (fun n => photoMatch n)

/-- The prepared table `df` of the app: cleaned headers, irrelevant columns
dropped. -/
def prepare (t : List NamedCol) : List NamedCol :=
  drop_irrelevant (clean_headers t)

/-- One row of the combined summary: a tally row tagged with its source
column (`.assign(Question=col)` appends `Question` as the last field). -/
structure CombinedRow where
  response : String
  count : Nat
  percent10 : ℤ
  question : String
deriving DecidableEq

/-- Model of the `all_summaries` loop: for each retained column, skip it if
it is a photo column, otherwise append its overall tally tagged with the
column name. -/
def all_summaries (t : List NamedCol) : List (List CombinedRow) :=
  (prepare t).foldl
    (fun acc c =>
      if c.1 ∈ photo_cols t then acc
      else acc ++ [(tallyFor c.1 c.2).map
        (fun r => ⟨r.response, r.count, r.percent10, c.1⟩)])
    []

/-- Model of `combined = pd.concat(all_summaries, ignore_index=True)`. -/
def combinedRows (t : List NamedCol) : List CombinedRow :=
  (all_summaries t).flatten

/-- A typed spreadsheet cell (percent cells carry the tenths encoding). -/
inductive ExcelVal where
  | str (s : String)
  | nat (n : Nat)
  | pct10 (z : ℤ)
deriving DecidableEq

/-- A single-sheet spreadsheet as written by `combined.to_excel(writer,
"All Responses", index=False)`: sheet name, header row, then one list of
cells per data row, all in the DataFrame's column order. -/
structure Sheet where
  sheetName : String
  header : List String
  rows : List (List ExcelVal)
deriving DecidableEq

/-- The combined-summary spreadsheet buffer.  The DataFrame columns are
`Response, Count, Percent (%)` from the tally, with `Question` appended
last by `.assign`. -/
def writeCombined (t : List NamedCol) : Sheet :=
  ⟨"All Responses", ["Response", "Count", "Percent (%)", "Question"],
    (combinedRows t).map (fun r =>
      [ExcelVal.str r.response, ExcelVal.nat r.count,
       ExcelVal.pct10 r.percent10, ExcelVal.str r.question])⟩

/-! ## Segmentation and the display loop -/

/-- The segment values of a column: its distinct non-missing values in
first-seen order (`df[segment_col].dropna().unique()`). -/
def segVals (g : List Cell) : List String := uniqueFirstSeen (g.filterMap id)

/-- The row indices of the segment `segment_col == v`
(`df[df[segment_col] == val]`); a missing cell never equals `v`. -/
def rowsOf (g : List Cell) (v : String) : List Nat :=
  (List.range g.length).filter (fun i => decide (g[i]? = some (some v)))

/-- Column lookup `df[name]` (first match; `[]` if absent, which the app's
select box rules out). -/
def findCol (t : List NamedCol) (gname : String) : List Cell :=
  ((t.find? (fun c => c.1 == gname)).map Prod.snd).getD []

/-- The cells of column `cs` restricted to the rows where the aligned
segment column `gs` equals `v`. -/
def selectRows (gs cs : List Cell) (v : String) : List Cell :=
  (gs.zip cs).filterMap (fun p => if p.1 = some v then some p.2 else none)

/-- The main display loop (lines 106–153): per retained non-photo column,
the list of `(subtitle, tally table)` pairs rendered — one overall pair
when no segmentation applies (no selection, or the column is segmented by
itself), otherwise one pair per segment value. -/
def displayBlocks (t : List NamedCol) (seg : Option String) :
    List (String × List (String × List TallyRow)) :=
  let df := prepare t
  let ph := photo_cols t
  df.filterMap (fun c =>
    if c.1 ∈ ph then none
    else
      some (c.1,
        let subtitle := if multiMatch c.1 then "Split-out Multi-Select" else "Overall"
        match seg with
        | some g =>
          if g = c.1 then [(subtitle, displayTally c.1 c.2)]
          else
            (segVals (findCol df g)).map
              (fun v => (subtitle ++ " | " ++ g ++ " = " ++ v,
                displayTally c.1 (selectRows (findCol df g) c.2 v)))
        | none => [(subtitle, displayTally c.1 c.2)]))

/-- One full render of the app for an upload and a segment-by selection:
the combined download buffer (computed before and independently of the
selection) and the displayed blocks. -/
def runApp (t : List NamedCol) (seg : Option String) :
    Sheet × List (String × List (String × List TallyRow)) :=
  (writeCombined t, displayBlocks t seg)

/-! ## Slug construction (`make_slug`) -/

/-- Scan for `re.sub(r"\W+", "_", ·)`: `inRun` records whether the scanner
is inside a maximal run of non-word characters (which produces exactly one
underscore). -/
def collapseAux (inRun : Bool) : List Char → List Char
  | [] => []
  | c :: t =>
    if isWordChar c then c :: collapseAux false t
    else if inRun then collapseAux true t
    else '_' :: collapseAux true t

def collapseNonWord (l : List Char) : List Char := collapseAux false l

/-- Python `str.strip("_")`. -/
def stripUnderscore (l : List Char) : List Char :=
  ((l.dropWhile (fun c => c == '_')).reverse.dropWhile (fun c => c == '_')).reverse

/-- Model of `make_slug` with its default length 20:
`re.sub(r"\W+", "_", name).strip("_").lower()[:20]`. -/
def make_slug (name : String) : String :=
  ⟨((stripUnderscore (collapseNonWord name.data)).map lowerChar).take 20⟩

/-! ## Photo archiver (lines 110–128) -/

/-- One entry of the zip archive (bytes as naturals). -/
structure ZipEntry where
  path : String
  content : List Nat
deriving DecidableEq

/-- Extension derivation `url.split(".")[-1].split("?")[0]`. -/
def extOf (url : String) : String :=
  ⟨(splitOnChar '?' ((splitOnChar '.' url.data).getLastD [])).headD []⟩

/-- Model of `df[col].dropna().items()`: the `(row index, url)` pairs of the
non-missing cells, in row order (`i` is the index of the first cell). -/
def dropnaItemsAux : ℕ → List Cell → List (ℕ × String)
  | _, [] => []
  | i, c :: t =>
    match c with
    | some u => (i, u) :: dropnaItemsAux (i + 1) t
    | none => dropnaItemsAux (i + 1) t

def dropnaItems (cells : List Cell) : List (Nat × String) :=
  dropnaItemsAux 0 cells

/-- The fetch loop: for each item one fetch is attempted (the second
component of the result records every attempted URL, in order); a success
adds one entry `{slug}/{idx}.{ext}`, any failure adds nothing.  The network
is abstracted as a function `fetch` returning `none` on any failure
(exception, timeout, or bad status via `raise_for_status`). -/
def zipLoop (fetch : String → Option (List Nat)) (slug : String) :
    List (Nat × String) → List ZipEntry × List String
  | [] => ([], [])
  | (idx, url) :: rest =>
    let r := zipLoop fetch slug rest
    match fetch url with
    | some bytes =>
      (⟨slug ++ "/" ++ toString idx ++ "." ++ extOf url, bytes⟩ :: r.1, url :: r.2)
    | none => (r.1, url :: r.2)

/-- The zip build for one photo column. -/
def buildZip (fetch : String → Option (List Nat)) (name : String)
    (cells : List Cell) : List ZipEntry × List String :=
  zipLoop fetch (make_slug name) (dropnaItems cells)

example : make_slug "Take a picture of the storefront!" = "take_a_picture_of_th" := by decide

example : extOf "http://x.com/a/b.jpg?sz=2" = "jpg" := by decide

example :
    buildZip (fun u => if u = "http://x.com/a.jpg" then some [7, 9] else none)
      "Photo!" [some "http://x.com/a.jpg", none, some "http://bad"]
      = ([⟨"photo/0.jpg", [7, 9]⟩], ["http://x.com/a.jpg", "http://bad"]) := by decide

/-! ## Claims about the tally strategies (C3, C6) -/

theorem ufsAux_eq_nil {α : Type} [DecidableEq α] {seen l : List α}
    (h : ∀ a ∈ l, a ∈ seen) : ufsAux seen l = [] := by
  induction l with
  | nil => rfl
  | cons x xs ih =>
    rw [ufsAux, if_pos (h x (List.mem_cons_self x xs))]
    exact ih (fun a ha => h a (List.mem_cons_of_mem x ha))

theorem ufs_replicate_none {n : ℕ} (h : 0 < n) :
    uniqueFirstSeen (List.replicate n (none : Cell)) = [none] := by
  rcases n with _ | m
  · omega
  · rw [List.replicate_succ, uniqueFirstSeen, ufsAux, if_neg (by simp)]
    congr 1
    exact ufsAux_eq_nil (fun a ha => by
      rw [List.eq_of_mem_replicate ha]
      exact List.mem_cons_self _ _)

theorem filterMap_id_replicate_none (n : ℕ) :
    (List.replicate n (none : Cell)).filterMap id = [] := by
  induction n with
  | zero => rfl
  | succ m ih => rw [List.replicate_succ, List.filterMap_cons]; exact ih

theorem count_replicate_self_d {α : Type} [DecidableEq α] (a : α) (n : ℕ) :
    List.count a (List.replicate n a) = n := by
  induction n with
  | zero => rfl
  | succ m ih => rw [List.replicate_succ, List.count_cons_self, ih]

theorem halfEvenDiv_full (k : ℤ) (hk : 0 < k) : halfEvenDiv (1000 * k) k = 1000 := by
  unfold halfEvenDiv
  rw [Int.mul_ediv_cancel _ hk.ne', Int.mul_emod_left]
  rw [if_neg (by omega), if_pos (by omega)]

/-- C6: neither tally strategy can fail, and percent computation never
divides by zero: an all-missing column gives a single simple-tally row for
the missing category at 100 % (`percent10 = 1000`), the multi-select tally
of an all-missing column is the empty table (its denominator is 0), and
both strategies map the empty column to the empty table. -/
theorem claim_C6_empty_and_all_missing (n : ℕ) (h : 0 < n) :
    summarize_simple (List.replicate n (none : Cell)) = [⟨"nan", n, 1000⟩]
    ∧ (⟨"nan", n, 1000⟩ : TallyRow).percentQ = 100
    ∧ summarize_multi (List.replicate n (none : Cell)) = []
    ∧ summarize_simple ([] : List Cell) = []
    ∧ summarize_multi ([] : List Cell) = [] := by
  refine ⟨?_, by norm_num [TallyRow.percentQ], ?_, by decide, by decide⟩
  · have hvc : valueCounts (List.replicate n (none : Cell)) = [(none, n)] := by
      unfold valueCounts
      rw [ufs_replicate_none h, List.map_cons, List.map_nil, count_replicate_self_d]
      simp [List.insertionSort, List.orderedInsert]
    simp only [summarize_simple, hvc, List.map_cons, List.map_nil, List.sum_cons,
      List.sum_nil, Nat.add_zero]
    rw [halfEvenDiv_full (n : ℤ) (by exact_mod_cast h)]
    rfl
  · simp only [summarize_multi, filterMap_id_replicate_none]
    rfl

theorem claim_C6_witness :
    0 < 3
    ∧ (summarize_simple (List.replicate 3 (none : Cell)) = [⟨"nan", 3, 1000⟩]
      ∧ (⟨"nan", 3, 1000⟩ : TallyRow).percentQ = 100
      ∧ summarize_multi (List.replicate 3 (none : Cell)) = []
      ∧ summarize_simple ([] : List Cell) = []
      ∧ summarize_multi ([] : List Cell) = []) :=
  ⟨by decide, claim_C6_empty_and_all_missing 3 (by decide)⟩

theorem sum_counts_summarize_simple (s : List Cell) :
    ((summarize_simple s).map TallyRow.count).sum = s.length := by
  unfold summarize_simple
  rw [List.map_map]
  have : (TallyRow.count ∘ fun p : Cell × ℕ =>
      (⟨cellStr p.1, p.2,
        halfEvenDiv (1000 * (p.2 : ℤ))
          ((((valueCounts s).map Prod.snd).sum : ℕ) : ℤ)⟩ : TallyRow)) = Prod.snd := rfl
  rw [this]
  exact sum_counts_valueCounts s

theorem sum_percentQ_eq (t : List TallyRow) :
    (t.map TallyRow.percentQ).sum = (((t.map TallyRow.percent10).sum : ℤ) : ℚ) / 10 := by
  induction t with
  | nil => simp
  | cons r rs ih =>
    rw [List.map_cons, List.map_cons, List.sum_cons, List.sum_cons, ih,
      TallyRow.percentQ]
    push_cast
    ring

/-- C3: for a column tallied with the Simple strategy, the display appends a
Total row whose Count is the sum of the tally counts — equal to the
column's row count, missing category included — and whose Percent is the
sum of the already-rounded row percents (the code's final `.round(1)` of
that sum is the identity, since a sum of tenths is a tenth); no Total row
is appended under the multi-select strategy. -/
theorem claim_C3_total_row (name : String) (s : List Cell) :
    (multiMatch name = false →
      displayTally name s
        = summarize_simple s
          ++ [⟨"Total", s.length, ((summarize_simple s).map TallyRow.percent10).sum⟩]
      ∧ ((summarize_simple s).map TallyRow.count).sum = s.length
      ∧ (⟨"Total", s.length,
          ((summarize_simple s).map TallyRow.percent10).sum⟩ : TallyRow).percentQ
          = ((summarize_simple s).map TallyRow.percentQ).sum)
    ∧ (multiMatch name = true → displayTally name s = summarize_multi s) := by
  constructor
  · intro hm
    refine ⟨?_, sum_counts_summarize_simple s, ?_⟩
    · unfold displayTally
      rw [if_neg (by simp [hm]), withTotal, sum_counts_summarize_simple s,
        halfEvenDiv_one]
    · rw [sum_percentQ_eq]
      rfl
  · intro hm
    unfold displayTally
    rw [if_pos hm]

theorem claim_C3_witness :
    multiMatch "Color" = false
    ∧ (displayTally "Color" [some "Red", some "Blue", some "Red", none]
        = summarize_simple [some "Red", some "Blue", some "Red", none]
          ++ [⟨"Total", ([some "Red", some "Blue", some "Red", none] : List Cell).length,
              ((summarize_simple [some "Red", some "Blue", some "Red", none]).map
                TallyRow.percent10).sum⟩]
      ∧ ((summarize_simple [some "Red", some "Blue", some "Red", none]).map
          TallyRow.count).sum
          = ([some "Red", some "Blue", some "Red", none] : List Cell).length
      ∧ (⟨"Total", ([some "Red", some "Blue", some "Red", none] : List Cell).length,
          ((summarize_simple [some "Red", some "Blue", some "Red", none]).map
            TallyRow.percent10).sum⟩ : TallyRow).percentQ
          = ((summarize_simple [some "Red", some "Blue", some "Red", none]).map
              TallyRow.percentQ).sum) :=
  ⟨by decide,
    (claim_C3_total_row "Color" [some "Red", some "Blue", some "Red", none]).1
      (by decide)⟩

example : displayTally "Color" [some "Red", some "Blue", some "Red", none]
    = [⟨"Red", 2, 500⟩, ⟨"Blue", 1, 250⟩, ⟨"nan", 1, 250⟩, ⟨"Total", 4, 1000⟩] := by
  decide

/-! ## Claim about segmentation (C4) -/

theorem mem_rowsOf {g : List Cell} {v : String} {i : ℕ} :
    i ∈ rowsOf g v ↔ g[i]? = some (some v) := by
  unfold rowsOf
  rw [List.mem_filter, List.mem_range, decide_eq_true_eq]
  constructor
  · exact fun h => h.2
  · intro h
    refine ⟨?_, h⟩
    rcases List.getElem?_eq_some_iff.mp h with ⟨hlt, -⟩
    exact hlt

/-- C4: for any segment column, the segment row subsets (one per distinct
non-missing value, enumerated in deterministic first-seen order) are
pairwise disjoint; their union is exactly the set of rows whose
segment-column value is non-missing; a row with a missing segment value
belongs to no segment. -/
theorem claim_C4_segments_partition (g : List Cell) :
    (∀ v₁ v₂, v₁ ≠ v₂ → ∀ i, i ∈ rowsOf g v₁ → i ∉ rowsOf g v₂)
    ∧ (∀ i, (∃ v ∈ segVals g, i ∈ rowsOf g v) ↔ ∃ x, g[i]? = some (some x))
    ∧ (∀ i, g[i]? = some none → ∀ v, i ∉ rowsOf g v)
    ∧ (segVals g).Nodup
    ∧ (segVals g).Pairwise
        (fun a b => List.indexOf a (g.filterMap id) < List.indexOf b (g.filterMap id)) := by
  refine ⟨?_, ?_, ?_, nodup_uniqueFirstSeen _, pairwise_indexOf_ufsAux [] _⟩
  · intro v₁ v₂ hne i h1 h2
    rw [mem_rowsOf] at h1 h2
    rw [h1] at h2
    simp only [Option.some.injEq] at h2
    exact hne h2
  · intro i
    constructor
    · rintro ⟨v, -, hv⟩
      exact ⟨v, mem_rowsOf.mp hv⟩
    · rintro ⟨x, hx⟩
      refine ⟨x, ?_, mem_rowsOf.mpr hx⟩
      unfold segVals
      rw [mem_uniqueFirstSeen, List.mem_filterMap]
      exact ⟨some x, List.getElem?_mem hx, rfl⟩
  · intro i hi v hv
    rw [mem_rowsOf] at hv
    rw [hi] at hv
    injection hv with hv2
    injection hv2

theorem claim_C4_witness :
    ("A" ≠ "B")
    ∧ (0 ∈ rowsOf [some "A", some "A", some "B", none] "A")
    ∧ 0 ∉ rowsOf [some "A", some "A", some "B", none] "B"
    ∧ segVals [some "A", some "A", some "B", none] = ["A", "B"]
    ∧ (∃ x, ([some "A", some "A", some "B", none] : List Cell)[2]? = some (some x)) :=
  ⟨by decide, by decide,
    (claim_C4_segments_partition [some "A", some "A", some "B", none]).1 "A" "B"
      (by decide) 0 (by decide),
    by decide,
    ((claim_C4_segments_partition [some "A", some "A", some "B", none]).2.1 2).mp
      ⟨"B", by decide, by decide⟩⟩

/-! ## Claim about `make_slug` (C10) -/

theorem lowerChar_wordchar (c : Char) : isWordChar (lowerChar c) = isWordChar c := by
  unfold lowerChar
  split <;> rfl

theorem lowerChar_cases (c : Char) :
    lowerChar c = c
    ∨ lowerChar c ∈ ['a', 'b', 'c', 'd', 'e', 'f', 'g', 'h', 'i', 'j', 'k', 'l',
        'm', 'n', 'o', 'p', 'q', 'r', 's', 't', 'u', 'v', 'w', 'x', 'y', 'z'] := by
  unfold lowerChar
  split <;> simp

theorem lowerChar_of_lower {c : Char}
    (h : c ∈ ['a', 'b', 'c', 'd', 'e', 'f', 'g', 'h', 'i', 'j', 'k', 'l',
        'm', 'n', 'o', 'p', 'q', 'r', 's', 't', 'u', 'v', 'w', 'x', 'y', 'z']) :
    lowerChar c = c := by
  fin_cases h <;> decide

theorem lowerChar_fix (c : Char) : lowerChar (lowerChar c) = lowerChar c := by
  rcases lowerChar_cases c with h | h
  · rw [h, h]
  · exact lowerChar_of_lower h

theorem lowerChar_eq_underscore {c : Char} (h : lowerChar c = '_') : c = '_' := by
  rcases lowerChar_cases c with h2 | h2
  · rw [h2] at h
    exact h
  · rw [h] at h2
    exact absurd h2 (by decide)

theorem collapseAux_wordchar {l : List Char} {b : Bool} {c : Char}
    (h : c ∈ collapseAux b l) : isWordChar c = true := by
  induction l generalizing b with
  | nil => simp [collapseAux] at h
  | cons x xs ih =>
    rw [collapseAux] at h
    by_cases hx : isWordChar x = true
    · rw [if_pos hx] at h
      rcases List.mem_cons.mp h with rfl | h2
      · exact hx
      · exact ih h2
    · rw [if_neg hx] at h
      by_cases hb : b = true
      · rw [if_pos hb] at h
        exact ih h
      · rw [if_neg hb] at h
        rcases List.mem_cons.mp h with rfl | h2
        · decide
        · exact ih h2

theorem revDropWhile_prefix {α : Type} (p : α → Bool) (x : List α) :
    ((x.reverse.dropWhile p).reverse) <+: x := by
  apply List.reverse_suffix.mp
  rw [List.reverse_reverse]
  exact List.dropWhile_suffix _

theorem mem_stripUnderscore {c : Char} {l : List Char} (h : c ∈ stripUnderscore l) :
    c ∈ l := by
  unfold stripUnderscore at h
  rw [List.mem_reverse] at h
  have h1 : c ∈ (l.dropWhile (fun c => c == '_')).reverse :=
    List.Sublist.mem h (List.dropWhile_suffix _).sublist
  rw [List.mem_reverse] at h1
  exact List.Sublist.mem h1 (List.dropWhile_suffix _).sublist

theorem stripUnderscore_head {l : List Char} {c : Char} {t : List Char}
    (h : stripUnderscore l = c :: t) : (c == '_') = false := by
  have hpre : (c :: t) <+: l.dropWhile (fun c => c == '_') := by
    rw [← h]
    exact revDropWhile_prefix _ _
  obtain ⟨r, hr⟩ := hpre
  rw [List.cons_append] at hr
  exact dropWhile_cons_head (fun c => c == '_') hr.symm

theorem collapseAux_true_nonword {r m : List Char}
    (hr : ∀ c ∈ r, isWordChar c = false) :
    collapseAux true (r ++ m) = collapseAux true m := by
  induction r with
  | nil => rfl
  | cons x xs ih =>
    rw [List.cons_append, collapseAux,
      if_neg (by simp [hr x (List.mem_cons_self x xs)]), if_pos rfl]
    exact ih (fun c hc => hr c (List.mem_cons_of_mem x hc))

/-- The scanner state of `collapseAux` after consuming a list starting from
state `b`: the scanner is inside a non-word run exactly when the last
consumed character is non-word. -/
def runState (b : Bool) : List Char → Bool
  | [] => b
  | c :: t => runState (!(isWordChar c)) t

theorem collapseAux_append (b : Bool) (m m₂ : List Char) :
    collapseAux b (m ++ m₂) = collapseAux b m ++ collapseAux (runState b m) m₂ := by
  induction m generalizing b with
  | nil => rfl
  | cons c t ih =>
    rw [List.cons_append, collapseAux, collapseAux, runState]
    by_cases hc : isWordChar c = true
    · rw [if_pos hc, if_pos hc]
      simp only [hc, Bool.not_true]
      rw [List.cons_append, ih false]
    · have hc' : isWordChar c = false := by simpa using hc
      rw [if_neg hc, if_neg hc]
      simp only [hc', Bool.not_false]
      cases b with
      | true =>
        rw [if_pos rfl, if_pos rfl]
        exact ih true
      | false =>
        rw [if_neg (by simp), if_neg (by simp), List.cons_append, ih true]

theorem runState_nonword : ∀ (r : List Char) (b : Bool), r ≠ [] →
    (∀ c ∈ r, isWordChar c = false) → runState b r = true := by
  intro r
  induction r with
  | nil =>
    intro b h1 _
    exact absurd rfl h1
  | cons c t ih =>
    intro b h1 h2
    rw [runState]
    cases t with
    | nil => simp [runState, h2 c (List.mem_cons_self c [])]
    | cons d t' =>
      exact ih (!(isWordChar c)) (by simp)
        (fun x hx => h2 x (List.mem_cons_of_mem c hx))

theorem runState_getLast? : ∀ (r : List Char) (b : Bool) (w : Char),
    r.getLast? = some w → runState b r = !(isWordChar w) := by
  intro r
  induction r with
  | nil =>
    intro b w h
    simp at h
  | cons c t ih =>
    intro b w h
    rw [runState]
    cases t with
    | nil =>
      rw [List.getLast?_singleton] at h
      injection h with h1
      subst h1
      rfl
    | cons d t' =>
      rw [List.getLast?_cons_cons] at h
      exact ih (!(isWordChar c)) w h

theorem collapseAux_nonword_run {r : List Char} (h1 : r ≠ [])
    (h2 : ∀ c ∈ r, isWordChar c = false) :
    collapseAux false r = ['_'] ∧ collapseAux true r = [] := by
  cases r with
  | nil => exact absurd rfl h1
  | cons c t =>
    have hc : isWordChar c = false := h2 c (List.mem_cons_self c t)
    have ht : collapseAux true t = [] := by
      have h3 := @collapseAux_true_nonword t []
        (fun x hx => h2 x (List.mem_cons_of_mem c hx))
      rwa [List.append_nil] at h3
    constructor
    · rw [collapseAux, if_neg (by simp [hc]), if_neg (by simp), ht]
    · rw [collapseAux, if_neg (by simp [hc]), if_pos rfl]
      exact ht

theorem stripU_cons_underscore (u : List Char) :
    stripUnderscore ('_' :: u) = stripUnderscore u := by
  unfold stripUnderscore
  rw [List.dropWhile_cons]
  simp

theorem stripU_append_underscore (u : List Char) :
    stripUnderscore (u ++ ['_']) = stripUnderscore u := by
  unfold stripUnderscore
  rw [List.dropWhile_append]
  by_cases hu : (u.dropWhile (fun c => c == '_')).isEmpty = true
  · rw [if_pos hu]
    have hu' : u.dropWhile (fun c => c == '_') = [] := by
      simpa [List.isEmpty_iff] using hu
    rw [hu']
    simp
  · rw [if_neg hu]
    rw [List.reverse_append]
    simp [List.dropWhile_cons]

theorem stripU_mark_true (m : List Char) :
    stripUnderscore ('_' :: collapseAux true m) = stripUnderscore (collapseAux false m) := by
  cases m with
  | nil => rfl
  | cons z m' =>
    by_cases hz : isWordChar z = true
    · rw [show collapseAux true (z :: m') = z :: collapseAux false m' from by
            rw [collapseAux, if_pos hz],
          show collapseAux false (z :: m') = z :: collapseAux false m' from by
            rw [collapseAux, if_pos hz]]
      exact stripU_cons_underscore _
    · have hz' : isWordChar z = false := by simpa using hz
      rw [show collapseAux true (z :: m') = collapseAux true m' from by
            rw [collapseAux, if_neg (by simp [hz']), if_pos rfl],
          show collapseAux false (z :: m') = '_' :: collapseAux true m' from by
            rw [collapseAux, if_neg (by simp [hz']), if_neg (by simp)]]

/-- C10 (amended): `make_slug` returns at most 20 characters, all of them
word characters already in lower case, and never beginning with an
underscore (possibly empty).  The substitution step replaces every maximal
run of non-word characters with a single underscore — stated here for an
arbitrary interior run of an arbitrary name: whenever the name splits as
`a ++ r ++ b` with `r` a nonempty non-word run, `a` ending and `b`
beginning with a word character (`a`, `b` otherwise arbitrary, underscores
and further runs included), the substitution yields
`collapse a ++ '_' :: collapse b` — while a leading or trailing non-word
run is deleted outright by the `strip("_")` step: removing such a run from
the input leaves the slug unchanged. -/
theorem claim_C10_make_slug (name : String) :
    (make_slug name).data.length ≤ 20
    ∧ (∀ c ∈ (make_slug name).data, isWordChar c = true ∧ lowerChar c = c)
    ∧ (make_slug name).data.head? ≠ some '_'
    ∧ (∀ a r b, name.data = a ++ r ++ b → r ≠ [] →
        (∀ c ∈ r, isWordChar c = false) →
        (∃ w, a.getLast? = some w ∧ isWordChar w = true) →
        (∃ y b', b = y :: b' ∧ isWordChar y = true) →
        collapseNonWord name.data = collapseNonWord a ++ '_' :: collapseNonWord b)
    ∧ (∀ r m, name.data = r ++ m → r ≠ [] → (∀ c ∈ r, isWordChar c = false) →
        make_slug name = make_slug ⟨m⟩)
    ∧ (∀ m r, name.data = m ++ r → r ≠ [] → (∀ c ∈ r, isWordChar c = false) →
        make_slug name = make_slug ⟨m⟩) := by
  refine ⟨?_, ?_, ?_, ?_, ?_, ?_⟩
  · exact List.length_take_le 20 _
  · intro c hc
    have hc1 := List.mem_of_mem_take hc
    rw [List.mem_map] at hc1
    obtain ⟨c₀, hc₀, rfl⟩ := hc1
    have hw : isWordChar c₀ = true :=
      collapseAux_wordchar (mem_stripUnderscore hc₀)
    exact ⟨by rw [lowerChar_wordchar]; exact hw, lowerChar_fix c₀⟩
  · intro hhead
    have hdata : (make_slug name).data
        = ((stripUnderscore (collapseNonWord name.data)).map lowerChar).take 20 := rfl
    rw [hdata] at hhead
    rcases hu : stripUnderscore (collapseNonWord name.data) with _ | ⟨c₀, t⟩
    · rw [hu] at hhead
      simp at hhead
    · rw [hu, List.map_cons, show (20 : ℕ) = 19 + 1 from rfl, List.take_succ_cons,
        List.head?_cons, Option.some.injEq] at hhead
      have hc0 : c₀ = '_' := lowerChar_eq_underscore hhead
      have hne := stripUnderscore_head hu
      rw [hc0] at hne
      simp at hne
  · intro a r b hdec hr1 hrw hlast hhead
    obtain ⟨w, hw, hww⟩ := hlast
    obtain ⟨y, b', rfl, hy⟩ := hhead
    rw [hdec]
    unfold collapseNonWord
    rw [List.append_assoc, collapseAux_append false a (r ++ y :: b'),
      runState_getLast? a false w hw, hww]
    simp only [Bool.not_true]
    congr 1
    cases r with
    | nil => exact absurd rfl hr1
    | cons x r' =>
      have hx : isWordChar x = false := hrw x (List.mem_cons_self x r')
      rw [List.cons_append, collapseAux, if_neg (by simp [hx]), if_neg (by simp),
        collapseAux_true_nonword (fun c hc => hrw c (List.mem_cons_of_mem x hc))]
      congr 1
      rw [collapseAux, if_pos hy, collapseAux, if_pos hy]
  · intro r m hdec hr1 hrw
    have hkey : stripUnderscore (collapseNonWord name.data)
        = stripUnderscore (collapseNonWord m) := by
      rw [hdec]
      unfold collapseNonWord
      rw [collapseAux_append false r m, (collapseAux_nonword_run hr1 hrw).1,
        runState_nonword r false hr1 hrw, List.singleton_append]
      exact stripU_mark_true m
    show (⟨((stripUnderscore (collapseNonWord name.data)).map lowerChar).take 20⟩
        : String) = _
    rw [hkey]
    rfl
  · intro m r hdec hr1 hrw
    have hkey : stripUnderscore (collapseNonWord name.data)
        = stripUnderscore (collapseNonWord m) := by
      rw [hdec]
      unfold collapseNonWord
      rw [collapseAux_append false m r]
      cases hstate : runState false m with
      | true =>
        rw [(collapseAux_nonword_run hr1 hrw).2, List.append_nil]
      | false =>
        rw [(collapseAux_nonword_run hr1 hrw).1]
        exact stripU_append_underscore _
    show (⟨((stripUnderscore (collapseNonWord name.data)).map lowerChar).take 20⟩
        : String) = _
    rw [hkey]
    rfl

theorem claim_C10_counterexample :
    make_slug "!a" = "a"
    ∧ (∀ c ∈ ("a" : String).data, c ≠ '_')
    ∧ isWordChar '!' = false := by
  refine ⟨by decide, ?_, by decide⟩
  decide

theorem claim_C10_witness :
    (∀ c ∈ ['!', '?'], isWordChar c = false)
    ∧ ("a_b!?c_d" : String).data = ['a', '_', 'b'] ++ ['!', '?'] ++ ['c', '_', 'd']
    ∧ collapseNonWord ("a_b!?c_d" : String).data
        = collapseNonWord ['a', '_', 'b'] ++ '_' :: collapseNonWord ['c', '_', 'd']
    ∧ make_slug "!a" = make_slug ⟨['a']⟩
    ∧ make_slug "ab!" = make_slug ⟨['a', 'b']⟩
    ∧ (make_slug "a_b!?c_d").data.length ≤ 20
    ∧ (make_slug "a_b!?c_d").data.head? ≠ some '_' := by
  refine ⟨by decide, by decide, ?_, ?_, ?_, (claim_C10_make_slug "a_b!?c_d").1,
    (claim_C10_make_slug "a_b!?c_d").2.2.1⟩
  · exact (claim_C10_make_slug "a_b!?c_d").2.2.2.1 ['a', '_', 'b'] ['!', '?']
      ['c', '_', 'd'] (by decide) (by decide) (by decide)
      ⟨'b', by decide, by decide⟩ ⟨'c', ['_', 'd'], rfl, by decide⟩
  · exact (claim_C10_make_slug "!a").2.2.2.2.1 ['!'] ['a'] (by decide) (by decide)
      (by decide)
  · exact (claim_C10_make_slug "ab!").2.2.2.2.2 ['a', 'b'] ['!'] (by decide)
      (by decide) (by decide)

/-! ## Claim about the irrelevant-column classification (C5) -/

theorem foldl_skip_append {α β : Type} (p : α → Prop) [DecidablePred p]
    (g : α → List β) (l : List α) (acc : List (List β)) :
    l.foldl (fun a c => if p c then a else a ++ [g c]) acc
      = acc ++ (l.filter (fun c => !decide (p c))).map g := by
  induction l generalizing acc with
  | nil => simp
  | cons x xs ih =>
    rw [List.foldl_cons]
    by_cases hx : p x
    · rw [if_pos hx, ih, List.filter_cons]
      simp [hx]
    · rw [if_neg hx, ih, List.filter_cons]
      simp [hx]

theorem all_summaries_eq (t : List NamedCol) :
    all_summaries t
      = ((prepare t).filter (fun c => !decide (c.1 ∈ photo_cols t))).map
          (fun c => (tallyFor c.1 c.2).map
            (fun r => ⟨r.response, r.count, r.percent10, c.1⟩)) := by
  unfold all_summaries
  have h := foldl_skip_append (fun c : NamedCol => c.1 ∈ photo_cols t)
    (fun c : NamedCol => (tallyFor c.1 c.2).map
      (fun r => ({ response := r.response, count := r.count,
                   percent10 := r.percent10, question := c.1 } : CombinedRow)))
    (prepare t) []
  rw [List.nil_append] at h
  exact h

theorem combinedRows_eq (t : List NamedCol) :
    combinedRows t
      = ((prepare t).filter (fun c => !decide (c.1 ∈ photo_cols t))).flatMap
          (fun c => (tallyFor c.1 c.2).map
            (fun r => ⟨r.response, r.count, r.percent10, c.1⟩)) := by
  unfold combinedRows
  rw [all_summaries_eq]
  rfl

theorem prepare_names (t : List NamedCol) :
    (prepare t).map Prod.fst
      = ((clean_headers t).map Prod.fst).filter (fun n => !irrelevantMatch n) := by
  unfold prepare drop_irrelevant
  rw [List.filter_map]
  rfl

theorem mem_prepare_not_irrelevant {t : List NamedCol} {c : NamedCol}
    (h : c ∈ prepare t) : irrelevantMatch c.1 = false := by
  have h2 := (List.mem_filter.mp h).2
  simpa using h2

theorem mem_combinedRows_facts {t : List NamedCol} {r : CombinedRow}
    (h : r ∈ combinedRows t) :
    irrelevantMatch r.question = false ∧ r.question ∉ photo_cols t := by
  rw [combinedRows_eq, List.mem_flatMap] at h
  obtain ⟨c, hc, hr⟩ := h
  rw [List.mem_map] at hr
  obtain ⟨row, hrow, rfl⟩ := hr
  refine ⟨mem_prepare_not_irrelevant (List.mem_of_mem_filter hc), ?_⟩
  have h2 := (List.mem_filter.mp hc).2
  simpa using h2

theorem mem_displayBlocks_name {t : List NamedCol} {seg : Option String}
    {blk : String × List (String × List TallyRow)}
    (h : blk ∈ displayBlocks t seg) :
    ∃ c ∈ prepare t, blk.1 = c.1 ∧ c.1 ∉ photo_cols t := by
  unfold displayBlocks at h
  rw [List.mem_filterMap] at h
  obtain ⟨c, hc, heq⟩ := h
  by_cases hph : c.1 ∈ photo_cols t
  · rw [if_pos hph] at heq
    exact absurd heq (by simp)
  · rw [if_neg hph] at heq
    refine ⟨c, hc, ?_, hph⟩
    have := Option.some.injEq .. ▸ heq
    simp only [Option.some.injEq] at heq
    rw [← heq]

/-- C5: a (cleaned) column name matching the irrelevant pattern
(`first.*last.*name|tracking|clean|email|\btoken\b|submitted\s*at`,
case-insensitively) is classified Irrelevant — this takes precedence over
the Photo and MultiSelect patterns — and such a column is dropped from the
retained table, from the combined export, and from the display; retention
is a pure function of the column-name strings (the cell lists never enter
the computation); names with equal lowercasings classify identically. -/
theorem claim_C5_irrelevant_dropped (t : List NamedCol) (name : String)
    (h : irrelevantMatch name = true) :
    classify name = ColClass.Irrelevant
    ∧ (∀ s, lowerStr s = lowerStr name → classify s = ColClass.Irrelevant)
    ∧ (∀ c ∈ prepare t, irrelevantMatch c.1 = false)
    ∧ ((prepare t).map Prod.fst
        = ((clean_headers t).map Prod.fst).filter (fun n => !irrelevantMatch n))
    ∧ (∀ r ∈ combinedRows t, irrelevantMatch r.question = false)
    ∧ (∀ blk ∈ displayBlocks t none, irrelevantMatch blk.1 = false) := by
  refine ⟨?_, ?_, ?_, prepare_names t, ?_, ?_⟩
  · unfold classify
    rw [h, if_pos rfl]
  · intro s hs
    have h2 : irrelevantMatch s = true := by
      unfold irrelevantMatch
      rw [hs]
      exact h
    unfold classify
    rw [h2, if_pos rfl]
  · intro c hc
    exact mem_prepare_not_irrelevant hc
  · intro r hr
    exact (mem_combinedRows_facts hr).1
  · intro blk hblk
    obtain ⟨c, hc, heq, -⟩ := mem_displayBlocks_name hblk
    rw [heq]
    exact mem_prepare_not_irrelevant hc

theorem claim_C5_witness :
    irrelevantMatch "Email photo" = true
    ∧ photoMatch "Email photo" = true
    ∧ (classify "Email photo" = ColClass.Irrelevant
      ∧ (∀ s, lowerStr s = lowerStr "Email photo" → classify s = ColClass.Irrelevant)
      ∧ (∀ c ∈ prepare [("Email photo", [some "u.jpg"]), ("Color", [some "Red"])],
          irrelevantMatch c.1 = false)
      ∧ ((prepare [("Email photo", [some "u.jpg"]), ("Color", [some "Red"])]).map
            Prod.fst
          = ((clean_headers
              [("Email photo", [some "u.jpg"]), ("Color", [some "Red"])]).map
                Prod.fst).filter (fun n => !irrelevantMatch n))
      ∧ (∀ r ∈ combinedRows [("Email photo", [some "u.jpg"]), ("Color", [some "Red"])],
          irrelevantMatch r.question = false)
      ∧ (∀ blk ∈ displayBlocks
            [("Email photo", [some "u.jpg"]), ("Color", [some "Red"])] none,
          irrelevantMatch blk.1 = false)) :=
  ⟨by decide, by decide,
    claim_C5_irrelevant_dropped
      [("Email photo", [some "u.jpg"]), ("Color", [some "Red"])]
      "Email photo" (by decide)⟩

example : classify "Select all toppings that apply" = ColClass.MultiSelect := by decide

example : classify "Take a picture of the shelf" = ColClass.Photo := by decide

example : classify "Favorite Color" = ColClass.Simple := by decide

example : classify "Tracking Number" = ColClass.Irrelevant := by decide

/-! ## Claim about the photo archiver (C9) -/

theorem dropnaItemsAux_map_snd (i : ℕ) (cells : List Cell) :
    (dropnaItemsAux i cells).map Prod.snd = cells.filterMap id := by
  induction cells generalizing i with
  | nil => rfl
  | cons c t ih =>
    cases c with
    | some u =>
      rw [dropnaItemsAux, List.filterMap_cons]
      simp only [List.map_cons, ih]
      rfl
    | none =>
      rw [dropnaItemsAux, List.filterMap_cons]
      exact ih (i + 1)

theorem mem_dropnaItemsAux {cells : List Cell} {i j : ℕ} {u : String} :
    (j, u) ∈ dropnaItemsAux i cells ↔ ∃ k, j = i + k ∧ cells[k]? = some (some u) := by
  induction cells generalizing i with
  | nil => simp [dropnaItemsAux]
  | cons c t ih =>
    cases c with
    | some v =>
      rw [dropnaItemsAux, List.mem_cons, ih]
      constructor
      · rintro (h | ⟨k, hk, hget⟩)
        · injection h with h1 h2
          exact ⟨0, by omega, by rw [h2]; simp⟩
        · exact ⟨k + 1, by omega, by simpa using hget⟩
      · rintro ⟨k, hk, hget⟩
        cases k with
        | zero =>
          simp only [List.getElem?_cons_zero, Option.some.injEq] at hget
          left
          rw [hget]
          simp [hk]
        | succ k' =>
          right
          exact ⟨k', by omega, by simpa using hget⟩
    | none =>
      rw [dropnaItemsAux, ih]
      constructor
      · rintro ⟨k, hk, hget⟩
        exact ⟨k + 1, by omega, by simpa using hget⟩
      · rintro ⟨k, hk, hget⟩
        cases k with
        | zero => simp at hget
        | succ k' => exact ⟨k', by omega, by simpa using hget⟩

theorem mem_dropnaItems {cells : List Cell} {j : ℕ} {u : String} :
    (j, u) ∈ dropnaItems cells ↔ cells[j]? = some (some u) := by
  rw [dropnaItems, mem_dropnaItemsAux]
  constructor
  · rintro ⟨k, hk, hget⟩
    rwa [show j = k by omega]
  · intro h
    exact ⟨j, by omega, h⟩

theorem zipLoop_snd (fetch : String → Option (List Nat)) (slug : String)
    (items : List (Nat × String)) :
    (zipLoop fetch slug items).2 = items.map Prod.snd := by
  induction items with
  | nil => rfl
  | cons p rest ih =>
    obtain ⟨idx, url⟩ := p
    cases hf : fetch url <;> simp [zipLoop, hf, ih]

theorem zipLoop_fst (fetch : String → Option (List Nat)) (slug : String)
    (items : List (Nat × String)) :
    (zipLoop fetch slug items).1
      = items.filterMap (fun p => (fetch p.2).map (fun bytes =>
          ({ path := slug ++ "/" ++ toString p.1 ++ "." ++ extOf p.2,
             content := bytes } : ZipEntry))) := by
  induction items with
  | nil => rfl
  | cons p rest ih =>
    obtain ⟨idx, url⟩ := p
    cases hf : fetch url <;> simp [zipLoop, hf, ih, List.filterMap_cons]

/-- C9: per invocation the archiver attempts each non-missing cell's URL
exactly once, in row order (the attempt trace is exactly the list of
non-missing cells); a successful fetch stores exactly one entry at
`{slug}/{row index}.{ext}` with the extension taken from the URL's last
dot-segment, query string stripped; a failed fetch stores nothing and the
loop continues; with no successes at all the archive is empty rather than
an error.  The network is abstracted as `fetch`, `none` covering every
per-URL failure mode; the request timeout is a real-time bound outside the
model. -/
theorem claim_C9_photo_archiver (fetch : String → Option (List Nat))
    (name : String) (cells : List Cell) :
    (buildZip fetch name cells).2 = cells.filterMap id
    ∧ (buildZip fetch name cells).1
        = (dropnaItems cells).filterMap (fun p : ℕ × String =>
            (fetch p.2).map (fun bytes =>
              ({ path := make_slug name ++ "/" ++ toString p.1 ++ "." ++ extOf p.2,
                 content := bytes } : ZipEntry)))
    ∧ (∀ e ∈ (buildZip fetch name cells).1, ∃ (i : ℕ) (url : String) (bytes : List Nat),
        cells[i]? = some (some url) ∧ fetch url = some bytes
        ∧ e = ⟨make_slug name ++ "/" ++ toString i ++ "." ++ extOf url, bytes⟩)
    ∧ (∀ (i : ℕ) (url : String) (bytes : List Nat),
        cells[i]? = some (some url) → fetch url = some bytes →
        (⟨make_slug name ++ "/" ++ toString i ++ "." ++ extOf url, bytes⟩ : ZipEntry)
          ∈ (buildZip fetch name cells).1)
    ∧ ((∀ u, fetch u = none) → (buildZip fetch name cells).1 = []) := by
  refine ⟨?_, ?_, ?_, ?_, ?_⟩
  · rw [buildZip, zipLoop_snd]
    exact dropnaItemsAux_map_snd 0 cells
  · rw [buildZip, zipLoop_fst]
  · intro e he
    rw [buildZip, zipLoop_fst, List.mem_filterMap] at he
    obtain ⟨p, hp, hmap⟩ := he
    obtain ⟨idx, url⟩ := p
    cases hf : fetch url with
    | none => rw [hf] at hmap; exact absurd hmap (by simp)
    | some bytes =>
      rw [hf] at hmap
      simp only [Option.map_some', Option.some.injEq] at hmap
      exact ⟨idx, url, bytes, mem_dropnaItems.mp hp, hf, hmap.symm⟩
  · intro i url bytes hcell hf
    rw [buildZip, zipLoop_fst, List.mem_filterMap]
    refine ⟨(i, url), mem_dropnaItems.mpr hcell, ?_⟩
    rw [hf]
    rfl
  · intro hnone
    rw [buildZip, zipLoop_fst]
    rw [List.filterMap_eq_nil_iff]
    intro p hp
    rw [hnone p.2]
    rfl

theorem claim_C9_witness :
    (buildZip (fun u => if u = "http://h/a.jpg" then some [1, 2, 3] else none)
        "Photo!" [some "http://h/a.jpg", none, some "http://h/bad.png"]).2
      = ([some "http://h/a.jpg", none, some "http://h/bad.png"] : List Cell).filterMap id
    ∧ (⟨make_slug "Photo!" ++ "/" ++ toString 0 ++ "." ++ extOf "http://h/a.jpg",
        [1, 2, 3]⟩ : ZipEntry)
        ∈ (buildZip (fun u => if u = "http://h/a.jpg" then some [1, 2, 3] else none)
            "Photo!" [some "http://h/a.jpg", none, some "http://h/bad.png"]).1
    ∧ (buildZip (fun _ => none) "Photo!"
        [some "http://h/a.jpg", none, some "http://h/bad.png"]).1 = [] :=
  ⟨(claim_C9_photo_archiver
      (fun u => if u = "http://h/a.jpg" then some [1, 2, 3] else none)
      "Photo!" [some "http://h/a.jpg", none, some "http://h/bad.png"]).1,
   (claim_C9_photo_archiver
      (fun u => if u = "http://h/a.jpg" then some [1, 2, 3] else none)
      "Photo!" [some "http://h/a.jpg", none, some "http://h/bad.png"]).2.2.2.1
      0 "http://h/a.jpg" [1, 2, 3] (by decide) (by decide),
   (claim_C9_photo_archiver (fun _ => none)
      "Photo!" [some "http://h/a.jpg", none, some "http://h/bad.png"]).2.2.2.2
      (fun _ => rfl)⟩

/-! ## Claim about the multi-select tally (C1) -/

/-- Occurrence count with the `BEq` derived from decidable equality (the
instance used inside `valueCounts`). -/
def countD {α : Type} [DecidableEq α] (a : α) (l : List α) : ℕ := List.count a l

theorem mem_summarize_multi {s : List Cell} {r : TallyRow} :
    r ∈ summarize_multi s
      ↔ ∃ v, v ∈ (s.filterMap id).flatMap tokensOf
          ∧ r = ⟨v, countD v ((s.filterMap id).flatMap tokensOf),
                halfEvenDiv
                  (1000 * (countD v ((s.filterMap id).flatMap tokensOf) : ℤ))
                  ((s.filterMap id).length : ℤ)⟩ := by
  unfold summarize_multi
  dsimp only
  rw [List.mem_map]
  constructor
  · rintro ⟨p, hp, rfl⟩
    rw [mem_valueCounts] at hp
    refine ⟨p.1, hp.1, ?_⟩
    rw [countD, ← hp.2]
  · rintro ⟨v, hv, rfl⟩
    exact ⟨(v, countD v ((s.filterMap id).flatMap tokensOf)),
      mem_valueCounts.mpr ⟨hv, rfl⟩, rfl⟩

theorem sum_map_count_nodup {α : Type} [DecidableEq α] (o : α) (l : List (List α))
    (hnd : ∀ x ∈ l, x.Nodup) :
    (l.map (fun x => List.count o x)).sum = l.countP (fun x => decide (o ∈ x)) := by
  induction l with
  | nil => rfl
  | cons x xs ih =>
    rw [List.map_cons, List.sum_cons, List.countP_cons,
      ih (fun y hy => hnd y (List.mem_cons_of_mem x hy))]
    by_cases ho : o ∈ x
    · rw [List.count_eq_one_of_mem (hnd x (List.mem_cons_self x xs)) ho]
      simp [ho]
      omega
    · rw [List.count_eq_zero_of_not_mem ho]
      simp [ho]

/-- C1 (amended): in a multi-select tally, a row's count is the number of
selection events for its response — the number of comma-split,
whitespace-trimmed tokens equal to it across the non-missing cells — which
coincides with the number of non-missing cells whose token list contains
the response whenever no cell lists the same option twice (the
counterexample input `"A,A"` separates the two readings); the percent
denominator is the non-missing cell count, and the percent is
`count / denominator × 100` rounded to one decimal; every token that
occurs is reported as a row. -/
theorem claim_C1_multi_option_counts (s : List Cell) (r : TallyRow)
    (hr : r ∈ summarize_multi s) :
    r.count = countD r.response ((s.filterMap id).flatMap tokensOf)
    ∧ r.percent10
        = halfEvenDiv (1000 * (r.count : ℤ)) ((s.filterMap id).length : ℤ)
    ∧ (r.percent10 : ℚ) / 10
        = round1 ((r.count : ℚ) / ((s.filterMap id).length : ℚ) * 100)
    ∧ ((∀ v ∈ s.filterMap id, (tokensOf v).Nodup) →
        r.count = (s.filterMap id).countP (fun v => decide (r.response ∈ tokensOf v)))
    ∧ (∀ o, o ∈ (s.filterMap id).flatMap tokensOf
        ↔ ∃ r2 ∈ summarize_multi s, TallyRow.response r2 = o) := by
  obtain ⟨v, hv, rfl⟩ := mem_summarize_multi.mp hr
  have htot : 0 < (s.filterMap id).length := by
    rcases hnm : s.filterMap id with _ | ⟨x, nm'⟩
    · rw [hnm] at hv
      simp at hv
    · simp
  refine ⟨rfl, rfl, ?_, ?_, ?_⟩
  · rw [halfEvenDiv_eq_rheQ _ _ (by exact_mod_cast htot), round1]
    have harg : (10 : ℚ) * ((countD v ((s.filterMap id).flatMap tokensOf) : ℚ)
        / ((s.filterMap id).length : ℚ) * 100)
        = ((1000 * (countD v ((s.filterMap id).flatMap tokensOf) : ℤ) : ℤ) : ℚ)
          / (((s.filterMap id).length : ℤ) : ℚ) := by
      push_cast
      ring
    rw [harg]
  · intro hnd
    show countD v ((s.filterMap id).flatMap tokensOf) = _
    rw [countD, List.count_flatMap]
    have hcomp : (List.count v ∘ tokensOf) = fun x => List.count v (tokensOf x) := rfl
    rw [hcomp]
    have hmap : (s.filterMap id).map (fun x => List.count v (tokensOf x))
        = ((s.filterMap id).map tokensOf).map (fun x => List.count v x) := by
      rw [List.map_map]
      rfl
    rw [hmap, sum_map_count_nodup v _ (fun x hx => by
      rw [List.mem_map] at hx
      obtain ⟨y, hy, rfl⟩ := hx
      exact hnd y hy)]
    rw [List.countP_map]
    rfl
  · intro o
    constructor
    · intro ho
      exact ⟨⟨o, countD o ((s.filterMap id).flatMap tokensOf),
        halfEvenDiv (1000 * (countD o ((s.filterMap id).flatMap tokensOf) : ℤ))
          ((s.filterMap id).length : ℤ)⟩,
        mem_summarize_multi.mpr ⟨o, ho, rfl⟩, rfl⟩
    · rintro ⟨r2, hr2, rfl⟩
      obtain ⟨w, hw, rfl⟩ := mem_summarize_multi.mp hr2
      exact hw

theorem claim_C1_counterexample :
    summarize_multi [some "A,A"] = [⟨"A", 2, 2000⟩]
    ∧ (([some ("A,A" : String)] : List Cell).filterMap id).countP
        (fun v => decide ("A" ∈ tokensOf v)) = 1
    ∧ (2 : ℕ) ≠ 1 := by
  refine ⟨by decide, by decide, by decide⟩

theorem claim_C1_witness :
    ((⟨"A", 2, 1000⟩ : TallyRow) ∈ summarize_multi [some "A,B", some "A"])
    ∧ ((⟨"A", 2, 1000⟩ : TallyRow).count
        = countD (⟨"A", 2, 1000⟩ : TallyRow).response
            ((([some "A,B", some "A"] : List Cell).filterMap id).flatMap tokensOf)
      ∧ (⟨"A", 2, 1000⟩ : TallyRow).percent10
          = halfEvenDiv (1000 * ((⟨"A", 2, 1000⟩ : TallyRow).count : ℤ))
              ((([some "A,B", some "A"] : List Cell).filterMap id).length : ℤ)
      ∧ ((⟨"A", 2, 1000⟩ : TallyRow).percent10 : ℚ) / 10
          = round1 (((⟨"A", 2, 1000⟩ : TallyRow).count : ℚ)
              / ((([some "A,B", some "A"] : List Cell).filterMap id).length : ℚ) * 100)
      ∧ ((∀ v ∈ ([some "A,B", some "A"] : List Cell).filterMap id, (tokensOf v).Nodup) →
          (⟨"A", 2, 1000⟩ : TallyRow).count
            = (([some "A,B", some "A"] : List Cell).filterMap id).countP
                (fun v => decide ((⟨"A", 2, 1000⟩ : TallyRow).response ∈ tokensOf v)))
      ∧ (∀ o, o ∈ (([some "A,B", some "A"] : List Cell).filterMap id).flatMap tokensOf
          ↔ ∃ r2 ∈ summarize_multi [some "A,B", some "A"], TallyRow.response r2 = o)) :=
  ⟨by decide,
    claim_C1_multi_option_counts [some "A,B", some "A"] ⟨"A", 2, 1000⟩ (by decide)⟩

/-! ## Claims about the combined export (C2, C8) -/

/-- C2 (amended): the combined summary is serialized as one sheet named
"All Responses" whose columns are, in order,
`[Response, Count, Percent (%), Question]` — the `Question` tag is appended
by `.assign` as the last column, not the first — with one row per tally row
of each retained non-photo column, rows in column order and, within a
column, in Tally Table order; the row count is the sum of the per-column
tally lengths. -/
theorem claim_C2_combined_sheet (t : List NamedCol) :
    (writeCombined t).sheetName = "All Responses"
    ∧ (writeCombined t).header = ["Response", "Count", "Percent (%)", "Question"]
    ∧ (writeCombined t).rows
        = ((prepare t).filter (fun c => !decide (c.1 ∈ photo_cols t))).flatMap
            (fun c => (tallyFor c.1 c.2).map (fun r =>
              [ExcelVal.str r.response, ExcelVal.nat r.count,
               ExcelVal.pct10 r.percent10, ExcelVal.str c.1]))
    ∧ (writeCombined t).rows.length
        = (((prepare t).filter (fun c => !decide (c.1 ∈ photo_cols t))).map
            (fun c => (tallyFor c.1 c.2).length)).sum := by
  refine ⟨rfl, rfl, ?_, ?_⟩
  · show (combinedRows t).map _ = _
    rw [combinedRows_eq, List.map_flatMap]
    congr 1
    funext c
    rw [List.map_map]
    rfl
  · show ((combinedRows t).map _).length = _
    rw [List.length_map, combinedRows_eq, List.length_flatMap]
    simp [Function.comp_def, List.length_map]

theorem claim_C2_counterexample :
    (writeCombined [("Color", [some "Red"])]).header
      = ["Response", "Count", "Percent (%)", "Question"]
    ∧ (writeCombined [("Color", [some "Red"])]).header
      ≠ ["Question", "Response", "Count", "Percent (%)"] := by
  refine ⟨rfl, by decide⟩

/-- C8: the combined-summary buffer is computed before the segment-by
selection is read and never mentions it: for the same upload, any two
segmentation choices (including none) yield the identical combined sheet,
which is the overall, unsegmented breakdown; the displayed blocks, in
contrast, do depend on the choice, so the independence is not vacuous. -/
theorem claim_C8_combined_independent_of_segmentation :
    (∀ (t : List NamedCol) (s₁ s₂ : Option String),
      (runApp t s₁).1 = (runApp t s₂).1)
    ∧ (∀ (t : List NamedCol) (s : Option String), (runApp t s).1 = writeCombined t)
    ∧ (∃ (t : List NamedCol) (s₁ s₂ : Option String),
        (runApp t s₁).2 ≠ (runApp t s₂).2) := by
  refine ⟨fun t s₁ s₂ => rfl, fun t s => rfl, ?_⟩
  exact ⟨[("Color", [some "Red", some "Blue"]), ("Size", [some "S", some "M"])],
    none, some "Size", by decide⟩

theorem claim_C8_witness :
    (runApp [("Color", [some "Red", some "Blue"]), ("Size", [some "S", some "M"])]
        none).1
      = (runApp [("Color", [some "Red", some "Blue"]), ("Size", [some "S", some "M"])]
          (some "Size")).1 :=
  claim_C8_combined_independent_of_segmentation.1
    [("Color", [some "Red", some "Blue"]), ("Size", [some "S", some "M"])]
    none (some "Size")
